import Mathlib

/- Verification of the retrieval core of the ai-doc-analyzer repository
   (`src/rag_pipeline.py`): document chunking, per-document vector storage,
   multi-query hybrid retrieval with deduplication, and cosine reranking.

   Numeric model: embedding vectors are rational vectors (`List ℚ`); the
   embedding model itself and the index distance metric are abstract
   parameters, since the Python code delegates them to an opaque ML model
   (`SentenceTransformer`) and to the vector-store backend.  Text is
   `String` at the API level and `List Char` inside the chunker. -/

/-! ## Chunker

Modelled from the spec: `RAGPipeline.__init__` configures a
`RecursiveCharacterTextSplitter` with `chunk_size=1000`, `chunk_overlap=200`
and the separator cascade paragraph break, line break, sentence end, space,
empty string; the splitter itself is a third-party library whose code is not
part of `src/`.  The definitions below follow §4.1 of the spec: split on the
highest-priority separator that occurs, greedily accumulate separator-delimited
segments until adding the next one would exceed `size`, emit the candidate
(stripped; whitespace-only candidates are dropped), re-include up to `overlap`
trailing characters of the previous chunk in the next candidate, retry an
oversized segment with the next separator down the cascade, and fall back to
raw character boundaries for the empty separator. -/

def trimL (l : List Char) : List Char :=
  ((l.dropWhile Char.isWhitespace).reverse.dropWhile Char.isWhitespace).reverse

/-- Emit one stripped candidate chunk, dropping it when whitespace-only. -/
def emit (l : List Char) : List (List Char) :=
  if trimL l = [] then [] else [trimL l]

/-- Locate the leftmost occurrence of `sep`: returns the text before it and
the text after it. -/
def breakAtSep (sep : List Char) : List Char → Option (List Char × List Char)
  | [] => none
  | c :: cs =>
    if sep.isPrefixOf (c :: cs) then some ([], cs.drop (sep.length - 1))
    else
      match breakAtSep sep cs with
      | none => none
      | some (p, r) => some (c :: p, r)

/-- Split at every (leftmost, non-overlapping) occurrence of `sep`, keeping
the separator attached to the front of the following segment, so that the
segments concatenate back to the input.  Fuel-indexed structural recursion;
`fuel > length` always suffices because each step consumes the separator. -/
def splitKeepF (sep : List Char) : ℕ → List Char → List (List Char)
  | 0, l => [l]
  | fuel + 1, l =>
    match breakAtSep sep l with
    | none => [l]
    | some (p, r) =>
      match splitKeepF sep fuel r with
      | [] => [p]
      | q :: qs => p :: (sep ++ q) :: qs

def segsOf (sep : List Char) (l : List Char) : List (List Char) :=
  (splitKeepF sep (l.length + 1) l).filter (fun s => s ≠ [])

/-- The trailing `n` characters of `l`. -/
def takeTailN (n : ℕ) (l : List Char) : List Char :=
  l.drop (l.length - n)

/-- Greedy merge of segments into candidate chunks of at most `size`
characters.  `Sum.inl` items are finished chunks; `Sum.inr` items are
oversized segments handed to the next separator of the cascade.  When a
candidate is emitted, the next one re-includes the trailing `overlap`
characters of it (capped so the next candidate stays within `size`). -/
def mergeSegs (size overlap : ℕ) : List Char → List (List Char) → List (Sum (List Char) (List Char))
  | current, [] => (emit current).map Sum.inl
  | current, seg :: more =>
    if size ≤ seg.length then
      (emit current).map Sum.inl ++ Sum.inr seg :: mergeSegs size overlap [] more
    else if size < current.length + seg.length then
      (emit current).map Sum.inl ++
        mergeSegs size overlap (takeTailN (min overlap (size - seg.length)) current ++ seg) more
    else
      mergeSegs size overlap (current ++ seg) more

/-- Last-resort split at raw character boundaries: windows of `size`
characters advancing by `size - overlap`.  Fuel-indexed; the configured
`size = 1000`, `overlap = 200` make each step consume 800 characters. -/
def charChunksF (size overlap : ℕ) : ℕ → List Char → List (List Char)
  | 0, _ => []
  | fuel + 1, l =>
    if l.length ≤ size then emit l
    else emit (l.take size) ++ charChunksF size overlap fuel (l.drop (size - overlap))

def charChunks (size overlap : ℕ) (l : List Char) : List (List Char) :=
  charChunksF size overlap (l.length + 1) l

/-- One cascade level applied to one work item. -/
def stepItem (size overlap : ℕ) (sep : List Char) :
    Sum (List Char) (List Char) → List (Sum (List Char) (List Char))
  | Sum.inl c => [Sum.inl c]
  | Sum.inr l =>
    if sep = [] then (charChunks size overlap l).map Sum.inl
    else
      match breakAtSep sep l with
      | none => [Sum.inr l]
      | some _ => mergeSegs size overlap [] (segsOf sep l)

/-- Run the separator cascade over a worklist of items, resolving pending
(`Sum.inr`) texts level by level. -/
def splitRecMulti (size overlap : ℕ) :
    List (List Char) → List (Sum (List Char) (List Char)) → List (List Char)
  | [], items =>
    items.flatMap (fun it => match it with | Sum.inl c => [c] | Sum.inr l => emit l)
  | sep :: rest, items =>
    splitRecMulti size overlap rest (items.flatMap (stepItem size overlap sep))

def sepCascade : List (List Char) := [['\n', '\n'], ['\n'], ['.', ' '], [' '], []]

/-- `RAGPipeline.chunk_document`, with the splitter configured as in
`RAGPipeline.__init__` (size 1000, overlap 200, the cascade above). -/
def chunk_document (text : String) : List String :=
  (splitRecMulti 1000 200 sepCascade [Sum.inr text.toList]).map List.asString

/-! ## Vector store state

One `Collection` per stored document, as created by `chromadb`; the entry
metadata mirrors the dict built in `store_document` (`chunk_index`,
`doc_id`, caller metadata pass-through). -/

structure ChunkMeta where
  chunk_index : ℕ
  doc_id : String
  extra : List (String × String)
deriving DecidableEq, Repr

structure Entry where
  id : String
  embedding : List ℚ
  document : String
  emeta : ChunkMeta
deriving DecidableEq, Repr

structure Collection where
  cname : String
  cmeta : List (String × String)
  entries : List Entry
deriving DecidableEq, Repr

abbrev RAGState := List Collection

/-- Modelled from the spec: the vector-store client (`chromadb`) is a
third-party backend not in `src/`; per §4.3, `get_collection` looks a
collection up by name and does not mutate the store. -/
def lookupColl (name : String) (st : RAGState) : Option Collection :=
  st.find? (fun c => c.cname == name)

/-- Modelled from the spec: §4.3 `get_or_create` creates an empty index. -/
def chromaCreateCollection (name : String) (meta : List (String × String))
    (st : RAGState) : RAGState :=
  st ++ [⟨name, meta, []⟩]

/-- Modelled from the spec: §4.3 `upsert` "inserts vector+text+metadata" and
§9 describes re-ingestion as appending new chunks alongside old ones, so
`collection.add` appends the given entries to the named collection. -/
def chromaAdd (name : String) (new : List Entry) (st : RAGState) : RAGState :=
  st.map (fun c => if c.cname == name then { c with entries := c.entries ++ new } else c)

/-- `RAGPipeline.create_embeddings`: one batched model call, one vector per
input text, order preserved; the model is the abstract parameter `embed`. -/
def create_embeddings (embed : String → List ℚ) (texts : List String) : List (List ℚ) :=
  texts.map embed

/-- The ids, documents, embeddings and metadatas prepared by
`store_document` lines 83-96: id `chunk_i` and metadata `chunk_index = i`
for the `i`-th chunk of this call. -/
def mkEntries (embed : String → List ℚ) (doc_id : ℕ) (metadata : List (String × String))
    (chunks : List String) : List Entry :=
  chunks.enum.map (fun p =>
    ⟨ "chunk_" ++ toString p.1, embed p.2, p.2, ⟨p.1, toString doc_id, metadata⟩⟩)

/-- `RAGPipeline.store_document`: get or create the collection `doc_{id}`,
chunk the text, return early when there are no chunks, otherwise add the
prepared entries. -/
def store_document (embed : String → List ℚ) (st : RAGState) (doc_id : ℕ)
    (text : String) (metadata : List (String × String)) : String × RAGState :=
  let collection_name := "doc_" ++ toString doc_id
  let st1 := match lookupColl collection_name st with
    | some _ => st
    | none => chromaCreateCollection collection_name [( "doc_id", toString doc_id)] st
  let chunks := chunk_document text
  if chunks = [] then (collection_name, st1)
  else (collection_name, chromaAdd collection_name (mkEntries embed doc_id metadata chunks) st1)

/-- `RAGPipeline.expand_query`: the original query plus five literal
template rephrasings, truncated to 6. -/
def expand_query (query : String) : List String :=
  ([query,
    "What is " ++ query ++ "?",
    "Explain " ++ query,
    "Information about " ++ query,
    "Details regarding " ++ query,
    "Can you tell me about " ++ query ++ "?"]).take 6

/-- The transient per-query record built in `hybrid_search` lines 159-165:
chunk id, text, metadata, distance, and the index of the query variation
that retrieved it. -/
structure Result where
  id : String
  text : String
  metadata : ChunkMeta
  distance : ℚ
  query_variation : ℕ
deriving DecidableEq, Repr

/-- Modelled from the spec: §4.3 `search` returns up to `k` entries of the
collection ordered ascending by distance to the query vector; the distance
metric (cosine distance or an equivalent monotone transform of it) belongs
to the backend and is abstracted as the parameter `dist`. -/
def chromaQueryEntries (dist : List ℚ → List ℚ → ℚ) (entries : List Entry)
    (qe : List ℚ) (n : ℕ) : List (Entry × ℚ) :=
  ((entries.map (fun e => (e, dist qe e.embedding))).mergeSort
    (fun a b => decide (a.2 ≤ b.2))).take n

/-- `hybrid_search` lines 142-168: embed every query variation, search the
collection with `n_results = min(top_k, 10)` per variation, tag each raw
result with its variation index.  `searchOk i = false` models the
`try/except` around variation `i`'s search step failing, in which case the
variation contributes nothing (`continue`). -/
def hybridAll (embed : String → List ℚ) (dist : List ℚ → List ℚ → ℚ) (searchOk : ℕ → Bool)
    (entries : List Entry) (query : String) (top_k : ℕ) : List Result :=
  (expand_query query).enum.flatMap (fun p =>
    if searchOk p.1 then
      (chromaQueryEntries dist entries (embed p.2) (min top_k 10)).map
        (fun ed => ⟨ed.1.id, ed.1.document, ed.1.emeta, ed.2, p.1⟩)
    else [])

/-- `hybrid_search` lines 170-178: walk the distance-sorted merged results,
keep the first occurrence of each chunk id, stop as soon as `top_k` unique
results have been collected (the `break` sits after the append). -/
def dedupGo (top_k : ℕ) : List Result → List String → List Result → List Result
  | [], _, acc => acc
  | r :: rs, seen, acc =>
    if r.id ∈ seen then dedupGo top_k rs seen acc
    else if top_k ≤ acc.length + 1 then acc ++ [r]
    else dedupGo top_k rs (r.id :: seen) (acc ++ [r])

def dedupSort (top_k : ℕ) (all : List Result) : List Result :=
  dedupGo top_k (all.mergeSort (fun a b => decide (a.distance ≤ b.distance))) [] []

/-- `RAGPipeline.hybrid_search`: empty result when the collection does not
exist, otherwise merge, sort by distance, deduplicate and truncate. -/
def hybrid_search (embed : String → List ℚ) (dist : List ℚ → List ℚ → ℚ) (searchOk : ℕ → Bool)
    (st : RAGState) (doc_id : ℕ) (query : String) (top_k : ℕ) : List Result :=
  match lookupColl ("doc_" ++ toString doc_id) st with
  | none => []
  | some coll => dedupSort top_k (hybridAll embed dist searchOk coll.entries query top_k)

/-! ## Reranker

`rerank_chunks` scores every candidate by cosine similarity between its
text embedding and the embedding of the original query, then sorts
descending (Python's stable sort) and truncates.  `cosineSim` is the exact
formula of line 204, `dot(q, c) / (norm(q) * norm(c))`, read in ℝ (with the
division-by-zero-is-zero convention for zero vectors); `simGe` is its
executable comparison, proved equivalent below. -/

def dotQ (u v : List ℚ) : ℚ := (List.zipWith (fun a b => a * b) u v).sum

def normSq (u : List ℚ) : ℚ := (u.map (fun a => a * a)).sum

def adjDot (q u : List ℚ) : ℚ := if normSq q = 0 ∨ normSq u = 0 then 0 else dotQ q u

def adjNorm (u : List ℚ) : ℚ := if normSq u = 0 then 1 else normSq u

/-- Decides `cosineSim q v ≤ cosineSim q u` by sign analysis and squaring,
avoiding square roots. -/
def simGe (q u v : List ℚ) : Bool :=
  if 0 ≤ adjDot q u then
    if adjDot q v ≤ 0 then true
    else decide (adjDot q v * adjDot q v * adjNorm u ≤ adjDot q u * adjDot q u * adjNorm v)
  else
    if 0 ≤ adjDot q v then false
    else decide (adjDot q u * adjDot q u * adjNorm v ≤ adjDot q v * adjDot q v * adjNorm u)

noncomputable def cosineSim (u v : List ℚ) : ℝ :=
  (dotQ u v : ℝ) / (Real.sqrt ((normSq u : ℚ) : ℝ) * Real.sqrt ((normSq v : ℚ) : ℝ))

/-- `RAGPipeline.rerank_chunks`: empty candidates give an empty result;
otherwise a stable descending sort by similarity to the original query,
truncated to `top_k`. -/
def rerank_chunks (embed : String → List ℚ) (query : String) (chunks : List Result)
    (top_k : ℕ) : List Result :=
  if chunks = [] then []
  else
    (chunks.mergeSort (fun a b => simGe (embed query) (embed a.text) (embed b.text))).take
      top_k

/-- `RAGPipeline.retrieve_context`: hybrid search with `top_k = 20`, empty
propagated, then rerank with depth 5 for intent "document", 3 for
"section", 3 for the `else` branch (`"fact"` and anything unrecognized). -/
def retrieve_context (embed : String → List ℚ) (dist : List ℚ → List ℚ → ℚ) (searchOk : ℕ → Bool)
    (st : RAGState) (doc_id : ℕ) (query : String) (intent : String) : List Result :=
  let chunks := hybrid_search embed dist searchOk st doc_id query 20
  if chunks = [] then []
  else if intent = "document" then rerank_chunks embed query chunks 5
  else if intent = "section" then rerank_chunks embed query chunks 3
  else rerank_chunks embed query chunks 3

/-- The record returned by `get_collection_stats`; the Python dict key
`exists` is the field `present` (`exists` is a Lean keyword). -/
structure CollStats where
  collection_name : String
  chunk_count : ℕ
  present : Bool
deriving DecidableEq, Repr

/-- `RAGPipeline.get_collection_stats`, in state-passing style: the chroma
calls it makes (`get_collection`, `count`) are reads, so the state component
is returned unchanged. -/
def get_collection_stats (st : RAGState) (doc_id : ℕ) : CollStats × RAGState :=
  let collection_name := "doc_" ++ toString doc_id
  match lookupColl collection_name st with
  | some coll => (⟨collection_name, coll.entries.length, true⟩, st)
  | none => (⟨collection_name, 0, false⟩, st)

/-! ## Chunker lemmas -/

lemma trimL_length_le (l : List Char) : (trimL l).length ≤ l.length := by
  unfold trimL
  have h1 := (List.dropWhile_sublist (l := l) Char.isWhitespace).length_le
  have h2 := (List.dropWhile_sublist (l := (l.dropWhile Char.isWhitespace).reverse)
    Char.isWhitespace).length_le
  simp only [List.length_reverse] at *
  omega

lemma trimL_subset (l : List Char) : ∀ c ∈ trimL l, c ∈ l := by
  intro c hc
  unfold trimL at hc
  rw [List.mem_reverse] at hc
  have h1 := ((List.dropWhile_sublist (l := (l.dropWhile Char.isWhitespace).reverse)
    Char.isWhitespace).subset) hc
  rw [List.mem_reverse] at h1
  exact (List.dropWhile_sublist (l := l) Char.isWhitespace).subset h1

lemma trimL_eq_nil (l : List Char) (h : ∀ c ∈ l, c.isWhitespace) : trimL l = [] := by
  unfold trimL
  have h1 : l.dropWhile Char.isWhitespace = [] := List.dropWhile_eq_nil_iff.mpr h
  simp [h1]

lemma all_ws_of_trimL_eq_nil (l : List Char) (h : trimL l = []) :
    ∀ c ∈ l, c.isWhitespace := by
  unfold trimL at h
  rw [List.reverse_eq_nil_iff] at h
  rw [List.dropWhile_eq_nil_iff] at h
  intro c hc
  rcases List.mem_append.mp (by
    rw [List.takeWhile_append_dropWhile (p := Char.isWhitespace) (l := l)]; exact hc) with
    h1 | h2
  · exact List.mem_takeWhile_imp h1
  · exact h c (by rwa [List.mem_reverse])

lemma emit_length_le (l : List Char) (n : ℕ) (hl : l.length ≤ n) :
    ∀ c ∈ emit l, c.length ≤ n := by
  intro c hc
  unfold emit at hc
  split at hc
  · simp at hc
  · simp at hc
    subst hc
    exact le_trans (trimL_length_le l) hl

lemma emit_eq_nil (l : List Char) (h : ∀ c ∈ l, c.isWhitespace) : emit l = [] := by
  unfold emit
  simp [trimL_eq_nil l h]

lemma emit_of_ne (l : List Char) (h : trimL l ≠ []) : emit l = [trimL l] := by
  unfold emit
  simp [h]

lemma mem_emit_subset (l : List Char) : ∀ c ∈ emit l, ∀ x ∈ c, x ∈ l := by
  intro c hc x hx
  unfold emit at hc
  split at hc
  · simp at hc
  · simp at hc
    subst hc
    exact trimL_subset l x hx

lemma isPrefixOf_append_drop : ∀ (s l : List Char), s.isPrefixOf l = true →
    s ++ l.drop s.length = l := by
  intro s
  induction s with
  | nil => intro l _; simp
  | cons a as ih =>
    intro l h
    cases l with
    | nil => simp [List.isPrefixOf] at h
    | cons b bs =>
      simp only [List.isPrefixOf, Bool.and_eq_true, beq_iff_eq] at h
      obtain ⟨hab, h2⟩ := h
      subst hab
      simpa using ih bs h2

lemma breakAtSep_some_append (sep : List Char) (hsep : sep ≠ []) :
    ∀ (l p r : List Char), breakAtSep sep l = some (p, r) → p ++ sep ++ r = l := by
  intro l
  induction l with
  | nil => intro p r h; simp [breakAtSep] at h
  | cons c cs ih =>
    intro p r h
    unfold breakAtSep at h
    split at h
    · rename_i hpre
      simp only [Option.some.injEq, Prod.mk.injEq] at h
      obtain ⟨hp, hr⟩ := h
      have := isPrefixOf_append_drop sep (c :: cs) hpre
      have hlen : 1 ≤ sep.length := by
        cases sep with
        | nil => exact absurd rfl hsep
        | cons x xs => simp
      have hdrop : (c :: cs).drop sep.length = cs.drop (sep.length - 1) := by
        cases hs : sep.length with
        | zero => omega
        | succ k => simp [hs]
      rw [hdrop, hr] at this
      rw [← hp]
      simpa using this
    · rename_i hpre
      cases hb : breakAtSep sep cs with
      | none => rw [hb] at h; simp at h
      | some pr =>
        obtain ⟨p', r'⟩ := pr
        rw [hb] at h
        simp only [Option.some.injEq, Prod.mk.injEq] at h
        obtain ⟨hp, hr⟩ := h
        have := ih p' r' hb
        rw [← hp, ← hr]
        rw [← this]
        simp

lemma breakAtSep_some_length (sep : List Char) :
    ∀ (l p r : List Char), breakAtSep sep l = some (p, r) → r.length < l.length := by
  intro l
  induction l with
  | nil => intro p r h; simp [breakAtSep] at h
  | cons c cs ih =>
    intro p r h
    unfold breakAtSep at h
    split at h
    · simp only [Option.some.injEq, Prod.mk.injEq] at h
      obtain ⟨hp, hr⟩ := h
      subst hr
      have := List.length_drop (sep.length - 1) cs
      simp only [this, List.length_cons]
      omega
    · cases hb : breakAtSep sep cs with
      | none => rw [hb] at h; simp at h
      | some pr =>
        obtain ⟨p', r'⟩ := pr
        rw [hb] at h
        simp only [Option.some.injEq, Prod.mk.injEq] at h
        obtain ⟨hp, hr⟩ := h
        have := ih p' r' hb
        rw [← hr]
        simp only [List.length_cons]
        omega

lemma splitKeepF_ne_nil (sep : List Char) (fuel : ℕ) (l : List Char) :
    splitKeepF sep fuel l ≠ [] := by
  cases fuel with
  | zero => simp [splitKeepF]
  | succ n =>
    unfold splitKeepF
    cases hb : breakAtSep sep l with
    | none => simp
    | some pr =>
      obtain ⟨p, r⟩ := pr
      cases hs : splitKeepF sep n r with
      | nil => simp [hs]
      | cons q qs => simp [hs]

lemma flatten_splitKeepF (sep : List Char) (hsep : sep ≠ []) :
    ∀ (fuel : ℕ) (l : List Char), l.length < fuel →
    (splitKeepF sep fuel l).flatten = l := by
  intro fuel
  induction fuel with
  | zero => intro l h; omega
  | succ n ih =>
    intro l hl
    cases hb : breakAtSep sep l with
    | none => simp [splitKeepF, hb]
    | some pr =>
      obtain ⟨p, r⟩ := pr
      have hlen := breakAtSep_some_length sep l p r hb
      have happ := breakAtSep_some_append sep hsep l p r hb
      have hrec := ih r (by omega)
      cases hs : splitKeepF sep n r with
      | nil => exact absurd hs (splitKeepF_ne_nil sep n r)
      | cons q qs =>
        rw [hs] at hrec
        simp only [splitKeepF, hb, hs, List.flatten_cons]
        rw [← happ, ← hrec]
        simp

lemma flatten_filter_ne_nil (L : List (List Char)) :
    (L.filter (fun s => s ≠ [])).flatten = L.flatten := by
  induction L with
  | nil => rfl
  | cons x xs ih =>
    simp only [List.filter_cons]
    split
    · rw [List.flatten_cons, List.flatten_cons, ih]
    · rename_i hcond
      have hx : x = [] := by simpa using hcond
      subst hx
      rw [ih, List.flatten_cons]
      rfl

lemma flatten_segsOf (sep : List Char) (hsep : sep ≠ []) (l : List Char) :
    (segsOf sep l).flatten = l := by
  unfold segsOf
  rw [flatten_filter_ne_nil]
  exact flatten_splitKeepF sep hsep (l.length + 1) l (by omega)

lemma segsOf_subset (sep : List Char) (hsep : sep ≠ []) (l : List Char) :
    ∀ s ∈ segsOf sep l, ∀ c ∈ s, c ∈ l := by
  intro s hs c hc
  have : c ∈ (segsOf sep l).flatten := List.mem_flatten.mpr ⟨s, hs, hc⟩
  rwa [flatten_segsOf sep hsep l] at this

lemma segsOf_length_le (sep : List Char) (hsep : sep ≠ []) (l : List Char) :
    ∀ s ∈ segsOf sep l, s.length ≤ l.length := by
  intro s hs
  have h1 : ((segsOf sep l).map List.length).sum = l.length := by
    rw [← List.length_flatten, flatten_segsOf sep hsep l]
  have h2 : s.length ∈ (segsOf sep l).map List.length := List.mem_map_of_mem _ hs
  have := List.single_le_sum (l := (segsOf sep l).map List.length)
    (by intro x hx; exact Nat.zero_le x) s.length h2
  omega

lemma segsOf_sum (sep : List Char) (hsep : sep ≠ []) (l : List Char) :
    ((segsOf sep l).map List.length).sum = l.length := by
  rw [← List.length_flatten, flatten_segsOf sep hsep l]

lemma takeTailN_length_le (n : ℕ) (l : List Char) : (takeTailN n l).length ≤ n := by
  unfold takeTailN
  rw [List.length_drop]
  omega

lemma takeTailN_subset (n : ℕ) (l : List Char) : ∀ c ∈ takeTailN n l, c ∈ l := by
  intro c hc
  exact (List.drop_sublist _ _).subset hc

lemma mergeSegs_inl_le (size overlap : ℕ) :
    ∀ (segs : List (List Char)) (current : List Char), current.length ≤ size →
    ∀ c, Sum.inl c ∈ mergeSegs size overlap current segs → c.length ≤ size := by
  intro segs
  induction segs with
  | nil =>
    intro current hcur c hc
    simp only [mergeSegs] at hc
    rw [List.mem_map] at hc
    obtain ⟨x, hx, hxc⟩ := hc
    cases hxc
    exact emit_length_le current size hcur _ hx
  | cons seg more ih =>
    intro current hcur c hc
    simp only [mergeSegs] at hc
    split at hc
    · rw [List.mem_append] at hc
      rcases hc with h1 | h2
      · rw [List.mem_map] at h1
        obtain ⟨x, hx, hxc⟩ := h1
        cases hxc
        exact emit_length_le current size hcur _ hx
      · rcases List.mem_cons.mp h2 with h3 | h4
        · simp at h3
        · exact ih [] (by simp) c h4
    · split at hc
      · rename_i hbig hover
        rw [List.mem_append] at hc
        rcases hc with h1 | h2
        · rw [List.mem_map] at h1
          obtain ⟨x, hx, hxc⟩ := h1
          cases hxc
          exact emit_length_le current size hcur _ hx
        · apply ih _ ?_ c h2
          have h5 := takeTailN_length_le (min overlap (size - seg.length)) current
          rw [List.length_append]
          omega
      · rename_i hbig hover
        apply ih _ ?_ c hc
        rw [List.length_append]
        omega

lemma mergeSegs_ws (size overlap : ℕ) :
    ∀ (segs : List (List Char)) (current : List Char),
    (∀ c ∈ current, c.isWhitespace) → (∀ s ∈ segs, ∀ c ∈ s, c.isWhitespace) →
    ∀ x ∈ mergeSegs size overlap current segs,
      ∃ l', x = Sum.inr l' ∧ ∀ c ∈ l', c.isWhitespace := by
  intro segs
  induction segs with
  | nil =>
    intro current hcur hsegs x hx
    simp only [mergeSegs] at hx
    rw [emit_eq_nil current hcur] at hx
    simp at hx
  | cons seg more ih =>
    intro current hcur hsegs x hx
    have hseg : ∀ c ∈ seg, c.isWhitespace := hsegs seg (by simp)
    have hmore : ∀ s ∈ more, ∀ c ∈ s, c.isWhitespace := fun s hs => hsegs s (by simp [hs])
    simp only [mergeSegs] at hx
    split at hx
    · rw [emit_eq_nil current hcur] at hx
      simp only [List.map_nil, List.nil_append] at hx
      rcases List.mem_cons.mp hx with h1 | h2
      · exact ⟨seg, h1, hseg⟩
      · exact ih [] (by simp) hmore x h2
    · split at hx
      · rw [emit_eq_nil current hcur] at hx
        simp only [List.map_nil, List.nil_append] at hx
        refine ih _ ?_ hmore x hx
        intro c hc
        rcases List.mem_append.mp hc with h1 | h2
        · exact hcur c (takeTailN_subset _ _ c h1)
        · exact hseg c h2
      · refine ih _ ?_ hmore x hx
        intro c hc
        rcases List.mem_append.mp hc with h1 | h2
        · exact hcur c h1
        · exact hseg c h2

lemma mergeSegs_fit (size overlap : ℕ) :
    ∀ (segs : List (List Char)) (current : List Char),
    current.length + (segs.map List.length).sum < size →
    mergeSegs size overlap current segs = (emit (current ++ segs.flatten)).map Sum.inl := by
  intro segs
  induction segs with
  | nil => intro current h; simp [mergeSegs]
  | cons seg more ih =>
    intro current h
    simp only [List.map_cons, List.sum_cons] at h
    simp only [mergeSegs]
    have h1 : ¬ (size ≤ seg.length) := by omega
    have h2 : ¬ (size < current.length + seg.length) := by omega
    rw [if_neg h1, if_neg h2]
    rw [ih (current ++ seg) (by rw [List.length_append]; omega)]
    simp [List.append_assoc]

lemma charChunksF_le (size overlap : ℕ) :
    ∀ (fuel : ℕ) (l : List Char), ∀ c ∈ charChunksF size overlap fuel l, c.length ≤ size := by
  intro fuel
  induction fuel with
  | zero => intro l c hc; simp [charChunksF] at hc
  | succ n ih =>
    intro l c hc
    simp only [charChunksF] at hc
    split at hc
    · rename_i hlen
      exact emit_length_le l size hlen c hc
    · rcases List.mem_append.mp hc with h1 | h2
      · refine emit_length_le (l.take size) size ?_ c h1
        rw [List.length_take]
        omega
      · exact ih _ c h2

lemma charChunksF_ws (size overlap : ℕ) :
    ∀ (fuel : ℕ) (l : List Char), (∀ c ∈ l, c.isWhitespace) →
    charChunksF size overlap fuel l = [] := by
  intro fuel
  induction fuel with
  | zero => intro l h; rfl
  | succ n ih =>
    intro l h
    simp only [charChunksF]
    split
    · exact emit_eq_nil l h
    · rw [emit_eq_nil _ (fun c hc => h c ((List.take_sublist _ _).subset hc)),
        ih _ (fun c hc => h c ((List.drop_sublist _ _).subset hc))]
      rfl

lemma charChunks_le (size overlap : ℕ) (l : List Char) :
    ∀ c ∈ charChunks size overlap l, c.length ≤ size :=
  charChunksF_le size overlap _ l

lemma charChunks_ws (size overlap : ℕ) (l : List Char) (h : ∀ c ∈ l, c.isWhitespace) :
    charChunks size overlap l = [] :=
  charChunksF_ws size overlap _ l h

lemma charChunks_short (size overlap : ℕ) (l : List Char) (h : l.length ≤ size) :
    charChunks size overlap l = emit l := by
  unfold charChunks
  simp only [charChunksF]
  rw [if_pos h]

lemma getLast?_cons_of_ne (a : List Char) (rest : List (List Char))
    (h : (a :: rest).getLast? = some []) (ha : a ≠ []) : rest.getLast? = some [] := by
  cases rest with
  | nil =>
    simp only [List.getLast?_singleton, Option.some.injEq] at h
    exact absurd h ha
  | cons b bs => rwa [List.getLast?_cons_cons] at h

lemma splitRecMulti_le (size overlap : ℕ) :
    ∀ (seps : List (List Char)) (items : List (Sum (List Char) (List Char))),
    (seps.getLast? = some [] ∨ ∀ x ∈ items, ∃ c, x = Sum.inl c) →
    (∀ c, Sum.inl c ∈ items → c.length ≤ size) →
    ∀ c ∈ splitRecMulti size overlap seps items, c.length ≤ size := by
  intro seps
  induction seps with
  | nil =>
    intro items hd hb c hc
    rcases hd with h1 | h2
    · simp at h1
    · simp only [splitRecMulti] at hc
      rw [List.mem_flatMap] at hc
      obtain ⟨x, hx, hcx⟩ := hc
      obtain ⟨c0, hc0⟩ := h2 x hx
      subst hc0
      simp only [List.mem_singleton] at hcx
      subst hcx
      exact hb c hx
  | cons sep rest ih =>
    intro items hd hb c hc
    simp only [splitRecMulti] at hc
    refine ih _ ?_ ?_ c hc
    · by_cases hsep : sep = []
      · right
        intro x hx
        rw [List.mem_flatMap] at hx
        obtain ⟨y, hy, hxy⟩ := hx
        cases y with
        | inl c0 =>
          simp only [stepItem, List.mem_singleton] at hxy
          exact ⟨c0, hxy⟩
        | inr l =>
          subst hsep
          have hstep : stepItem size overlap [] (Sum.inr l) =
              (charChunks size overlap l).map Sum.inl := by
            simp [stepItem]
          rw [hstep, List.mem_map] at hxy
          obtain ⟨c0, _, hc0⟩ := hxy
          exact ⟨c0, hc0.symm⟩
      · rcases hd with h1 | h2
        · left
          exact getLast?_cons_of_ne sep rest h1 hsep
        · right
          intro x hx
          rw [List.mem_flatMap] at hx
          obtain ⟨y, hy, hxy⟩ := hx
          obtain ⟨c0, hc0⟩ := h2 y hy
          subst hc0
          simp only [stepItem, List.mem_singleton] at hxy
          exact ⟨c0, hxy⟩
    · intro c0 hc0
      rw [List.mem_flatMap] at hc0
      obtain ⟨y, hy, hxy⟩ := hc0
      cases y with
      | inl c1 =>
        simp only [stepItem, List.mem_singleton, Sum.inl.injEq] at hxy
        subst hxy
        exact hb _ hy
      | inr l =>
        simp only [stepItem] at hxy
        split at hxy
        · rw [List.mem_map] at hxy
          obtain ⟨c1, hc1, heq⟩ := hxy
          have hceq : c1 = c0 := by injection heq
          subst hceq
          exact charChunks_le size overlap l _ hc1
        · split at hxy
          · simp at hxy
          · exact mergeSegs_inl_le size overlap _ [] (by simp) _ hxy

lemma splitRecMulti_ws (size overlap : ℕ) :
    ∀ (seps : List (List Char)) (items : List (Sum (List Char) (List Char))),
    (∀ x ∈ items, ∃ l', x = Sum.inr l' ∧ ∀ c ∈ l', c.isWhitespace) →
    splitRecMulti size overlap seps items = [] := by
  intro seps
  induction seps with
  | nil =>
    intro items h
    simp only [splitRecMulti]
    rw [List.flatMap_eq_nil_iff]
    intro x hx
    obtain ⟨l', hl', hws⟩ := h x hx
    subst hl'
    exact emit_eq_nil l' hws
  | cons sep rest ih =>
    intro items h
    simp only [splitRecMulti]
    apply ih
    intro x hx
    rw [List.mem_flatMap] at hx
    obtain ⟨y, hy, hxy⟩ := hx
    obtain ⟨l', hl', hws⟩ := h y hy
    subst hl'
    simp only [stepItem] at hxy
    split at hxy
    · rw [charChunks_ws size overlap l' hws] at hxy
      simp at hxy
    · rename_i hsep
      split at hxy
      · rw [List.mem_singleton] at hxy
        exact ⟨l', hxy, hws⟩
      · exact mergeSegs_ws size overlap _ [] (by simp)
          (fun s hs c hc => hws c (segsOf_subset sep hsep l' s hs c hc)) x hxy

lemma splitRecMulti_inl (size overlap : ℕ) :
    ∀ (seps : List (List Char)) (cs : List (List Char)),
    splitRecMulti size overlap seps (cs.map Sum.inl) = cs := by
  intro seps
  induction seps with
  | nil =>
    intro cs
    simp only [splitRecMulti]
    induction cs with
    | nil => rfl
    | cons c cs ihc => simpa using ihc
  | cons sep rest ih =>
    intro cs
    simp only [splitRecMulti]
    have hstep : (cs.map Sum.inl).flatMap (stepItem size overlap sep) = cs.map Sum.inl := by
      induction cs with
      | nil => rfl
      | cons c cs ihc => simpa [stepItem] using ihc
    rw [hstep, ih]

lemma splitRecMulti_single (size overlap : ℕ) :
    ∀ (seps : List (List Char)) (l : List Char), l.length < size →
    splitRecMulti size overlap seps [Sum.inr l] = emit l := by
  intro seps
  induction seps with
  | nil =>
    intro l hl
    simp only [splitRecMulti]
    simp
  | cons sep rest ih =>
    intro l hl
    simp only [splitRecMulti]
    by_cases hsep : sep = []
    · subst hsep
      have h1 : [Sum.inr l].flatMap (stepItem size overlap []) = (emit l).map Sum.inl := by
        simp [stepItem, charChunks_short size overlap l (by omega)]
      rw [h1, splitRecMulti_inl]
    · cases hb : breakAtSep sep l with
      | none =>
        have h1 : [Sum.inr l].flatMap (stepItem size overlap sep) = [Sum.inr l] := by
          simp [stepItem, hsep, hb]
        rw [h1]
        exact ih l hl
      | some pr =>
        have hsum : ((segsOf sep l).map List.length).sum = l.length := segsOf_sum sep hsep l
        have hstep : stepItem size overlap sep (Sum.inr l) =
            mergeSegs size overlap [] (segsOf sep l) := by
          simp [stepItem, hsep, hb]
        have h1 : [Sum.inr l].flatMap (stepItem size overlap sep) = (emit l).map Sum.inl := by
          simp only [List.flatMap_cons, List.flatMap_nil, List.append_nil, hstep]
          rw [mergeSegs_fit size overlap (segsOf sep l) [] (by simpa [hsum] using hl)]
          rw [List.nil_append, flatten_segsOf sep hsep l]
        rw [h1, splitRecMulti_inl]

lemma chunk_document_ws (text : String) (h : ∀ c ∈ text.toList, c.isWhitespace) :
    chunk_document text = [] := by
  unfold chunk_document
  rw [splitRecMulti_ws 1000 200 sepCascade _ ?_]
  · rfl
  · intro x hx
    rw [List.mem_singleton] at hx
    subst hx
    exact ⟨text.toList, rfl, h⟩

lemma chunk_document_le (text : String) : ∀ s ∈ chunk_document text, s.length ≤ 1000 := by
  intro s hs
  unfold chunk_document at hs
  rw [List.mem_map] at hs
  obtain ⟨c, hc, hcs⟩ := hs
  subst hcs
  rw [List.length_asString]
  refine splitRecMulti_le 1000 200 sepCascade _ (Or.inl (by rfl)) ?_ c hc
  intro c0 hc0
  simp at hc0

lemma chunk_document_short (text : String) (h1 : text.length < 1000)
    (h2 : trimL text.toList ≠ []) :
    chunk_document text = [(trimL text.toList).asString] := by
  unfold chunk_document
  rw [splitRecMulti_single 1000 200 sepCascade text.toList (by
    have hlen : text.toList.length = text.length := rfl
    omega)]
  rw [emit_of_ne _ h2]
  rfl

/-! ## Cosine similarity: the executable comparison agrees with the ℝ formula -/

lemma normSq_nonneg (u : List ℚ) : 0 ≤ normSq u := by
  unfold normSq
  apply List.sum_nonneg
  intro x hx
  rw [List.mem_map] at hx
  obtain ⟨a, _, ha⟩ := hx
  subst ha
  exact mul_self_nonneg a

lemma adjNorm_pos (u : List ℚ) : 0 < adjNorm u := by
  unfold adjNorm
  split
  · exact one_pos
  · rename_i h
    exact lt_of_le_of_ne (normSq_nonneg u) (Ne.symm h)

lemma cosineSim_eq (q u : List ℚ) :
    cosineSim q u = (adjDot q u : ℝ) / Real.sqrt ((adjNorm u : ℚ) : ℝ) /
      Real.sqrt ((normSq q : ℚ) : ℝ) := by
  by_cases hq : normSq q = 0
  · simp only [cosineSim, adjDot, adjNorm, hq]
    simp
  · by_cases hu : normSq u = 0
    · simp only [cosineSim, adjDot, adjNorm, hu]
      simp [hq]
    · simp only [cosineSim, adjDot, adjNorm, if_neg hu,
        if_neg (by tauto : ¬ (normSq q = 0 ∨ normSq u = 0))]
      rw [div_div, mul_comm]

lemma mul_sqrt_mul_self (x W : ℚ) (hW : 0 ≤ W) :
    ((x : ℝ) * Real.sqrt ((W : ℚ) : ℝ)) * ((x : ℝ) * Real.sqrt ((W : ℚ) : ℝ)) =
      (x : ℝ) * (x : ℝ) * ((W : ℚ) : ℝ) := by
  rw [mul_mul_mul_comm, Real.mul_self_sqrt (by exact_mod_cast hW)]

lemma div_sqrt_le_iff_pos (x y S T : ℝ) (hx : 0 ≤ x) (hy : 0 < y) (hS : 0 < S) (hT : 0 < T) :
    (y / Real.sqrt T ≤ x / Real.sqrt S) ↔ y * y * S ≤ x * x * T := by
  have hS' : (0 : ℝ) < Real.sqrt S := Real.sqrt_pos.mpr hS
  have hT' : (0 : ℝ) < Real.sqrt T := Real.sqrt_pos.mpr hT
  rw [div_le_div_iff₀ hT' hS']
  rw [mul_self_le_mul_self_iff (mul_nonneg hy.le hS'.le) (mul_nonneg hx hT'.le)]
  rw [mul_mul_mul_comm y _ y _, Real.mul_self_sqrt hS.le,
    mul_mul_mul_comm x _ x _, Real.mul_self_sqrt hT.le]

lemma div_sqrt_le_iff_neg (x y S T : ℝ) (hx : x < 0) (hy : y < 0) (hS : 0 < S) (hT : 0 < T) :
    (y / Real.sqrt T ≤ x / Real.sqrt S) ↔ x * x * T ≤ y * y * S := by
  have h1 : (y / Real.sqrt T ≤ x / Real.sqrt S) ↔
      (-x) / Real.sqrt S ≤ (-y) / Real.sqrt T := by
    rw [neg_div, neg_div, neg_le_neg_iff]
  rw [h1, div_sqrt_le_iff_pos (-y) (-x) T S (by linarith) (by linarith) hT hS,
    neg_mul_neg, neg_mul_neg]

lemma simGe_iff (q u v : List ℚ) :
    simGe q u v = true ↔ cosineSim q v ≤ cosineSim q u := by
  rw [cosineSim_eq q u, cosineSim_eq q v]
  have hUq : (0 : ℝ) < Real.sqrt ((adjNorm u : ℚ) : ℝ) := by
    rw [Real.sqrt_pos]
    exact_mod_cast adjNorm_pos u
  have hVq : (0 : ℝ) < Real.sqrt ((adjNorm v : ℚ) : ℝ) := by
    rw [Real.sqrt_pos]
    exact_mod_cast adjNorm_pos v
  by_cases hq : normSq q = 0
  · have ha : adjDot q u = 0 := by simp [adjDot, hq]
    have hb : adjDot q v = 0 := by simp [adjDot, hq]
    rw [ha, hb]
    simp [simGe, ha, hb]
  · have hQ : (0 : ℝ) < Real.sqrt ((normSq q : ℚ) : ℝ) := by
      rw [Real.sqrt_pos]
      exact_mod_cast lt_of_le_of_ne (normSq_nonneg q) (Ne.symm hq)
    rw [div_le_div_iff_of_pos_right hQ]
    unfold simGe
    by_cases ha : 0 ≤ adjDot q u
    · rw [if_pos ha]
      by_cases hb : adjDot q v ≤ 0
      · rw [if_pos hb]
        refine iff_of_true rfl ?_
        have h1 : ((adjDot q v : ℚ) : ℝ) / Real.sqrt ((adjNorm v : ℚ) : ℝ) ≤ 0 := by
          rw [← zero_div (Real.sqrt ((adjNorm v : ℚ) : ℝ)),
            div_le_div_iff_of_pos_right hVq]
          exact_mod_cast hb
        have h2 : (0 : ℝ) ≤ ((adjDot q u : ℚ) : ℝ) / Real.sqrt ((adjNorm u : ℚ) : ℝ) :=
          div_nonneg (by exact_mod_cast ha) (Real.sqrt_nonneg _)
        linarith
      · rw [if_neg hb, decide_eq_true_eq]
        rw [div_sqrt_le_iff_pos ((adjDot q u : ℚ) : ℝ) ((adjDot q v : ℚ) : ℝ)
          ((adjNorm u : ℚ) : ℝ) ((adjNorm v : ℚ) : ℝ) (by exact_mod_cast ha)
          (by exact_mod_cast not_le.mp hb) (by exact_mod_cast adjNorm_pos u)
          (by exact_mod_cast adjNorm_pos v)]
        constructor
        · intro h
          exact_mod_cast h
        · intro h
          exact_mod_cast h
    · rw [if_neg ha]
      have ha' : adjDot q u < 0 := not_le.mp ha
      by_cases hb : 0 ≤ adjDot q v
      · rw [if_pos hb]
        refine iff_of_false (by simp) ?_
        rw [not_le]
        have h1 : ((adjDot q u : ℚ) : ℝ) / Real.sqrt ((adjNorm u : ℚ) : ℝ) < 0 :=
          div_neg_of_neg_of_pos (by exact_mod_cast ha') hUq
        have h2 : (0 : ℝ) ≤ ((adjDot q v : ℚ) : ℝ) / Real.sqrt ((adjNorm v : ℚ) : ℝ) :=
          div_nonneg (by exact_mod_cast hb) (Real.sqrt_nonneg _)
        linarith
      · rw [if_neg hb, decide_eq_true_eq]
        rw [div_sqrt_le_iff_neg ((adjDot q u : ℚ) : ℝ) ((adjDot q v : ℚ) : ℝ)
          ((adjNorm u : ℚ) : ℝ) ((adjNorm v : ℚ) : ℝ) (by exact_mod_cast ha')
          (by exact_mod_cast not_le.mp hb) (by exact_mod_cast adjNorm_pos u)
          (by exact_mod_cast adjNorm_pos v)]
        constructor
        · intro h
          exact_mod_cast h
        · intro h
          exact_mod_cast h

lemma simGe_total (q x y : List ℚ) : (simGe q x y || simGe q y x) = true := by
  rcases le_total (cosineSim q y) (cosineSim q x) with h | h
  · rw [(simGe_iff q x y).mpr h]
    simp
  · rw [(simGe_iff q y x).mpr h]
    simp

lemma simGe_trans (q x y z : List ℚ) (h1 : simGe q x y = true) (h2 : simGe q y z = true) :
    simGe q x z = true := by
  rw [simGe_iff] at h1 h2 ⊢
  exact le_trans h2 h1

/-! ## Reranker lemmas -/

lemma rerank_chunks_length_le (embed : String → List ℚ) (query : String)
    (chunks : List Result) (top_k : ℕ) :
    (rerank_chunks embed query chunks top_k).length ≤ top_k := by
  unfold rerank_chunks
  split
  · simp
  · rw [List.length_take]
    exact inf_le_left

lemma rerank_chunks_sorted (embed : String → List ℚ) (query : String) (chunks : List Result)
    (top_k : ℕ) :
    (rerank_chunks embed query chunks top_k).Pairwise
      (fun a b => cosineSim (embed query) (embed b.text) ≤
        cosineSim (embed query) (embed a.text)) := by
  unfold rerank_chunks
  split
  · exact List.Pairwise.nil
  · apply List.Pairwise.sublist (List.take_sublist _ _)
    have hs := List.sorted_mergeSort
      (fun (a b c : Result)
        (h1 : simGe (embed query) (embed a.text) (embed b.text) = true)
        (h2 : simGe (embed query) (embed b.text) (embed c.text) = true) =>
        simGe_trans (embed query) _ _ _ h1 h2)
      (fun a b => simGe_total (embed query) (embed a.text) (embed b.text))
      chunks
    exact hs.imp (fun hab => (simGe_iff _ _ _).mp hab)

lemma rerank_chunks_nil (embed : String → List ℚ) (query : String) (top_k : ℕ) :
    rerank_chunks embed query [] top_k = [] := rfl

/-! ## Deduplication lemmas -/

lemma mergeSort_dist_sorted (all : List Result) :
    (all.mergeSort (fun a b => decide (a.distance ≤ b.distance))).Pairwise
      (fun a b => a.distance ≤ b.distance) := by
  have hs := List.sorted_mergeSort
    (fun (a b c : Result) (h1 : decide (a.distance ≤ b.distance) = true)
      (h2 : decide (b.distance ≤ c.distance) = true) =>
      decide_eq_true (le_trans (of_decide_eq_true h1) (of_decide_eq_true h2)))
    (fun a b => by rcases le_total a.distance b.distance with h | h <;> simp [h])
    all
  exact hs.imp (fun hab => of_decide_eq_true hab)

lemma dedupGo_subset (k : ℕ) :
    ∀ (l : List Result) (seen : List String) (acc : List Result),
    ∀ x ∈ dedupGo k l seen acc, x ∈ acc ∨ x ∈ l := by
  intro l
  induction l with
  | nil =>
    intro seen acc x hx
    left
    simpa [dedupGo] using hx
  | cons r rs ih =>
    intro seen acc x hx
    simp only [dedupGo] at hx
    split at hx
    · rcases ih _ _ x hx with h | h
      · left; exact h
      · right; simp [h]
    · split at hx
      · rcases List.mem_append.mp hx with h | h
        · left; exact h
        · right
          rw [List.mem_singleton] at h
          simp [h]
      · rcases ih _ _ x hx with h | h
        · rcases List.mem_append.mp h with h1 | h2
          · left; exact h1
          · right
            rw [List.mem_singleton] at h2
            simp [h2]
        · right; simp [h]

lemma nodup_ids_append (acc : List Result) (r : Result) (seen : List String)
    (h1 : (acc.map (fun x => x.id)).Nodup) (h2 : ∀ a ∈ acc, a.id ∈ seen)
    (hr : r.id ∉ seen) : ((acc ++ [r]).map (fun x => x.id)).Nodup := by
  rw [List.map_append, List.nodup_append]
  refine ⟨h1, by simp, ?_⟩
  intro x hx1 hx2
  rw [List.mem_map] at hx1
  obtain ⟨a, ha, hax⟩ := hx1
  simp only [List.map_cons, List.map_nil, List.mem_singleton] at hx2
  subst hx2
  exact hr (hax ▸ h2 a ha)

lemma dedupGo_nodup (k : ℕ) :
    ∀ (l : List Result) (seen : List String) (acc : List Result),
    (acc.map (fun r => r.id)).Nodup →
    (∀ a ∈ acc, a.id ∈ seen) →
    ((dedupGo k l seen acc).map (fun r => r.id)).Nodup := by
  intro l
  induction l with
  | nil =>
    intro seen acc h1 h2
    simpa [dedupGo] using h1
  | cons r rs ih =>
    intro seen acc h1 h2
    simp only [dedupGo]
    split
    · exact ih _ _ h1 h2
    · rename_i hnotin
      split
      · exact nodup_ids_append acc r seen h1 h2 hnotin
      · refine ih _ _ (nodup_ids_append acc r seen h1 h2 hnotin) ?_
        intro a ha
        rcases List.mem_append.mp ha with h | h
        · exact List.mem_cons_of_mem _ (h2 a h)
        · rw [List.mem_singleton] at h
          subst h
          exact List.mem_cons_self _ _

lemma dedupGo_pairwise (k : ℕ) :
    ∀ (l : List Result) (seen : List String) (acc : List Result),
    l.Pairwise (fun a b => a.distance ≤ b.distance) →
    acc.Pairwise (fun a b => a.distance ≤ b.distance) →
    (∀ a ∈ acc, ∀ b ∈ l, a.distance ≤ b.distance) →
    (dedupGo k l seen acc).Pairwise (fun a b => a.distance ≤ b.distance) := by
  intro l
  induction l with
  | nil =>
    intro seen acc _ h2 _
    simpa [dedupGo] using h2
  | cons r rs ih =>
    intro seen acc hl hacc hcross
    rw [List.pairwise_cons] at hl
    obtain ⟨hr_rs, hrs⟩ := hl
    have happ : (acc ++ [r]).Pairwise (fun a b => a.distance ≤ b.distance) := by
      rw [List.pairwise_append]
      refine ⟨hacc, by simp, ?_⟩
      intro a ha b hb
      rw [List.mem_singleton] at hb
      rw [hb]
      exact hcross a ha r (List.mem_cons_self _ _)
    simp only [dedupGo]
    split
    · exact ih _ _ hrs hacc (fun a ha b hb => hcross a ha b (List.mem_cons_of_mem _ hb))
    · split
      · exact happ
      · refine ih _ _ hrs happ ?_
        intro a ha b hb
        rcases List.mem_append.mp ha with h | h
        · exact hcross a h b (List.mem_cons_of_mem _ hb)
        · rw [List.mem_singleton] at h
          subst h
          exact hr_rs b hb

lemma dedupGo_min (k : ℕ) (full : List Result)
    (hfull : full.Pairwise (fun a b => a.distance ≤ b.distance)) :
    ∀ (l : List Result) (seen : List String) (acc : List Result) (pre : List Result),
    full = pre ++ l →
    (∀ s ∈ pre, s.id ∈ seen) →
    (∀ a ∈ acc, ∀ s ∈ full, a.id = s.id → a.distance ≤ s.distance) →
    ∀ x ∈ dedupGo k l seen acc, ∀ s ∈ full, x.id = s.id → x.distance ≤ s.distance := by
  intro l
  induction l with
  | nil =>
    intro seen acc pre hsplit hpre hacc x hx
    exact hacc x (by simpa [dedupGo] using hx)
  | cons r rs ih =>
    intro seen acc pre hsplit hpre hacc x hx
    simp only [dedupGo] at hx
    split at hx
    · rename_i hin
      refine ih _ _ (pre ++ [r]) (by rw [hsplit]; simp) ?_ hacc x hx
      intro s hs
      rcases List.mem_append.mp hs with h | h
      · exact hpre s h
      · rw [List.mem_singleton] at h
        subst h
        exact hin
    · rename_i hnotin
      have hrmin : ∀ s ∈ full, r.id = s.id → r.distance ≤ s.distance := by
        intro s hs hid
        rw [hsplit] at hs
        rcases List.mem_append.mp hs with h | h
        · have hmem : r.id ∈ seen := by
            rw [hid]
            exact hpre s h
          exact absurd hmem hnotin
        · rcases List.mem_cons.mp h with h1 | h2
          · subst h1
            exact le_refl _
          · have hful2 := hfull
            rw [hsplit] at hful2
            have hp2 := (List.pairwise_append.mp hful2).2.1
            rw [List.pairwise_cons] at hp2
            exact hp2.1 s h2
      split at hx
      · rcases List.mem_append.mp hx with h | h
        · exact hacc x h
        · rw [List.mem_singleton] at h
          subst h
          exact hrmin
      · refine ih _ _ (pre ++ [r]) (by rw [hsplit]; simp) ?_ ?_ x hx
        · intro s hs
          rcases List.mem_append.mp hs with h | h
          · exact List.mem_cons_of_mem _ (hpre s h)
          · rw [List.mem_singleton] at h
            subst h
            exact List.mem_cons_self _ _
        · intro a ha
          rcases List.mem_append.mp ha with h | h
          · exact hacc a h
          · rw [List.mem_singleton] at h
            subst h
            exact hrmin

lemma dedupGo_length (k : ℕ) :
    ∀ (l : List Result) (seen : List String) (acc : List Result),
    acc.length < k →
    (dedupGo k l seen acc).length ≤ k := by
  intro l
  induction l with
  | nil =>
    intro seen acc h
    simp only [dedupGo]
    omega
  | cons r rs ih =>
    intro seen acc h
    simp only [dedupGo]
    split
    · exact ih _ _ h
    · split
      · rw [List.length_append, List.length_singleton]
        rename_i hk
        omega
      · rename_i hk
        refine ih _ _ ?_
        rw [List.length_append, List.length_singleton]
        omega

lemma dedupSort_nodup (k : ℕ) (all : List Result) :
    ((dedupSort k all).map (fun r => r.id)).Nodup :=
  dedupGo_nodup k _ [] [] (by simp) (by simp)

lemma dedupSort_pairwise (k : ℕ) (all : List Result) :
    (dedupSort k all).Pairwise (fun a b => a.distance ≤ b.distance) := by
  unfold dedupSort
  exact dedupGo_pairwise k _ [] [] (mergeSort_dist_sorted all) List.Pairwise.nil (by simp)

lemma dedupSort_subset (k : ℕ) (all : List Result) :
    ∀ x ∈ dedupSort k all, x ∈ all := by
  intro x hx
  unfold dedupSort at hx
  rcases dedupGo_subset k _ _ _ x hx with h | h
  · simp at h
  · exact (List.mergeSort_perm all _).mem_iff.mp h

lemma dedupSort_min (k : ℕ) (all : List Result) :
    ∀ x ∈ dedupSort k all, ∀ s ∈ all, x.id = s.id → x.distance ≤ s.distance := by
  intro x hx s hs hid
  unfold dedupSort at hx
  exact dedupGo_min k _ (mergeSort_dist_sorted all) _ [] [] [] (by simp) (by simp)
    (by simp) x hx s ((List.mergeSort_perm all _).mem_iff.mpr hs) hid

lemma dedupSort_length (k : ℕ) (all : List Result) (hk : 1 ≤ k) :
    (dedupSort k all).length ≤ k :=
  dedupGo_length k _ [] [] (by simpa using hk)

/-! ## Hybrid search lemmas -/

lemma hybridAll_zero (embed : String → List ℚ) (dist : List ℚ → List ℚ → ℚ)
    (searchOk : ℕ → Bool) (entries : List Entry) (query : String) :
    hybridAll embed dist searchOk entries query 0 = [] := by
  unfold hybridAll
  rw [List.flatMap_eq_nil_iff]
  intro p hp
  split
  · simp [chromaQueryEntries]
  · rfl

lemma hybridAll_tag (embed : String → List ℚ) (dist : List ℚ → List ℚ → ℚ)
    (searchOk : ℕ → Bool) (entries : List Entry) (query : String) (top_k : ℕ) :
    ∀ r ∈ hybridAll embed dist searchOk entries query top_k,
      searchOk r.query_variation = true := by
  intro r hr
  unfold hybridAll at hr
  rw [List.mem_flatMap] at hr
  obtain ⟨p, hp, hrp⟩ := hr
  split at hrp
  · rename_i hok
    rw [List.mem_map] at hrp
    obtain ⟨ed, _, hed⟩ := hrp
    subst hed
    exact hok
  · simp at hrp

lemma hybridAll_fail (embed : String → List ℚ) (dist : List ℚ → List ℚ → ℚ)
    (searchOk : ℕ → Bool) (entries : List Entry) (query : String) (top_k : ℕ)
    (h : ∀ i, searchOk i = false) :
    hybridAll embed dist searchOk entries query top_k = [] := by
  unfold hybridAll
  rw [List.flatMap_eq_nil_iff]
  intro p hp
  simp [h p.1]

lemma dedupSort_nil (k : ℕ) : dedupSort k [] = [] := by
  unfold dedupSort
  rw [List.mergeSort_nil]
  rfl

lemma hybrid_search_zero (embed : String → List ℚ) (dist : List ℚ → List ℚ → ℚ)
    (searchOk : ℕ → Bool) (st : RAGState) (doc_id : ℕ) (query : String) :
    hybrid_search embed dist searchOk st doc_id query 0 = [] := by
  unfold hybrid_search
  split
  · rfl
  · rw [hybridAll_zero]
    exact dedupSort_nil 0

/-! ## Store and stats lemmas -/

lemma lookupColl_create_self (name : String) (meta : List (String × String)) (st : RAGState)
    (h : lookupColl name st = none) :
    lookupColl name (chromaCreateCollection name meta st) = some ⟨name, meta, []⟩ := by
  unfold lookupColl chromaCreateCollection
  unfold lookupColl at h
  rw [List.find?_append, h]
  simp [List.find?_cons]

lemma lookupColl_add (name : String) (new : List Entry) (st : RAGState) :
    lookupColl name (chromaAdd name new st) =
      (lookupColl name st).map (fun c => ⟨c.cname, c.cmeta, c.entries ++ new⟩) := by
  unfold lookupColl chromaAdd
  induction st with
  | nil => rfl
  | cons c cs ih =>
    simp only [List.map_cons, List.find?_cons]
    by_cases hc : (c.cname == name) = true
    · rw [if_pos hc]
      have h2 : (({ cname := c.cname, cmeta := c.cmeta, entries := c.entries ++ new } :
          Collection).cname == name) = true := hc
      rw [h2]
      rfl
    · rw [if_neg hc]
      have hc2 : (c.cname == name) = false := by
        revert hc
        cases (c.cname == name) <;> simp
      rw [hc2]
      exact ih

lemma mkEntries_ids (embed : String → List ℚ) (doc_id : ℕ) (meta : List (String × String))
    (chunks : List String) :
    (mkEntries embed doc_id meta chunks).map (fun e => e.id) =
      (List.range chunks.length).map (fun i => "chunk_" ++ toString i) := by
  unfold mkEntries
  rw [List.map_map, ← List.enum_map_fst chunks, List.map_map]
  rfl

lemma store_document_some (embed : String → List ℚ) (st : RAGState) (doc_id : ℕ)
    (text : String) (meta : List (String × String)) (c : Collection)
    (hc : lookupColl ("doc_" ++ toString doc_id) st = some c) :
    lookupColl ("doc_" ++ toString doc_id) (store_document embed st doc_id text meta).2 =
      some ⟨c.cname, c.cmeta,
        c.entries ++ mkEntries embed doc_id meta (chunk_document text)⟩ := by
  simp only [store_document]
  rw [hc]
  split
  · rename_i hnil
    rw [hnil]
    simp only [mkEntries, List.enum_nil, List.map_nil, List.append_nil]
    rw [hc]
  · rw [lookupColl_add, hc]
    rfl

lemma store_document_none (embed : String → List ℚ) (st : RAGState) (doc_id : ℕ)
    (text : String) (meta : List (String × String))
    (h : lookupColl ("doc_" ++ toString doc_id) st = none) :
    lookupColl ("doc_" ++ toString doc_id) (store_document embed st doc_id text meta).2 =
      some ⟨ "doc_" ++ toString doc_id, [( "doc_id", toString doc_id)],
        mkEntries embed doc_id meta (chunk_document text)⟩ := by
  simp only [store_document]
  rw [h]
  have hcr := lookupColl_create_self ("doc_" ++ toString doc_id)
    [( "doc_id", toString doc_id)] st h
  split
  · rename_i hnil
    rw [hnil]
    simp only [mkEntries, List.enum_nil, List.map_nil]
    exact hcr
  · rw [lookupColl_add, hcr]
    rfl

/-! ## Claims -/

/-- C1: for every doc_id, query and top_k, the list returned by
`hybrid_search` contains no repeated chunk id, is sorted ascending by
distance, has length at most `top_k`, and every kept entry is one of the
merged per-variant results and carries the minimum distance observed for
its chunk id across all query variants. -/
theorem claim_C1 (embed : String → List ℚ) (dist : List ℚ → List ℚ → ℚ)
    (searchOk : ℕ → Bool) (st : RAGState) (doc_id : ℕ) (query : String) (top_k : ℕ) :
    ((hybrid_search embed dist searchOk st doc_id query top_k).map (fun r => r.id)).Nodup ∧
    (hybrid_search embed dist searchOk st doc_id query top_k).Pairwise
      (fun a b => a.distance ≤ b.distance) ∧
    (hybrid_search embed dist searchOk st doc_id query top_k).length ≤ top_k ∧
    (∀ coll, lookupColl ("doc_" ++ toString doc_id) st = some coll →
      ∀ r ∈ hybrid_search embed dist searchOk st doc_id query top_k,
        r ∈ hybridAll embed dist searchOk coll.entries query top_k ∧
        ∀ s ∈ hybridAll embed dist searchOk coll.entries query top_k,
          r.id = s.id → r.distance ≤ s.distance) := by
  refine ⟨?_, ?_, ?_, ?_⟩
  · unfold hybrid_search
    split
    · simp
    · exact dedupSort_nodup _ _
  · unfold hybrid_search
    split
    · simp
    · exact dedupSort_pairwise _ _
  · rcases Nat.eq_zero_or_pos top_k with h0 | h1
    · subst h0
      rw [hybrid_search_zero]
      simp
    · unfold hybrid_search
      split
      · simp
      · exact dedupSort_length _ _ h1
  · intro coll hcoll r hr
    unfold hybrid_search at hr
    split at hr
    · simp at hr
    · rename_i c hc
      rw [hcoll] at hc
      injection hc with hc2
      subst hc2
      exact ⟨dedupSort_subset _ _ r hr, fun s hs hid => dedupSort_min _ _ r hr s hs hid⟩

theorem claim_C1_witness :
    ((hybrid_search (fun _ => [(0 : ℚ)]) (fun _ _ => 0) (fun _ => true)
        [⟨ "doc_1", [], [⟨ "chunk_0", [0], "a", ⟨0, "1", []⟩⟩]⟩] 1 "q" 5).map
      (fun r => r.id)).Nodup :=
  (claim_C1 (fun _ => [(0 : ℚ)]) (fun _ _ => 0) (fun _ => true)
    [⟨ "doc_1", [], [⟨ "chunk_0", [0], "a", ⟨0, "1", []⟩⟩]⟩] 1 "q" 5).1

/-- C2: `retrieve_context` returns at most 5 results for intent "document",
at most 3 for "section" and "fact", and any other intent string returns
exactly the result of "fact" without error. -/
theorem claim_C2 (embed : String → List ℚ) (dist : List ℚ → List ℚ → ℚ)
    (searchOk : ℕ → Bool) (st : RAGState) (doc_id : ℕ) (query : String) :
    (retrieve_context embed dist searchOk st doc_id query "document").length ≤ 5 ∧
    (retrieve_context embed dist searchOk st doc_id query "section").length ≤ 3 ∧
    (retrieve_context embed dist searchOk st doc_id query "fact").length ≤ 3 ∧
    (∀ intent, intent ≠ "document" → intent ≠ "section" →
      retrieve_context embed dist searchOk st doc_id query intent =
        retrieve_context embed dist searchOk st doc_id query "fact") := by
  by_cases hc : hybrid_search embed dist searchOk st doc_id query 20 = []
  · refine ⟨?_, ?_, ?_, ?_⟩ <;> simp [retrieve_context, hc]
  · refine ⟨?_, ?_, ?_, ?_⟩
    · simpa [retrieve_context, hc] using rerank_chunks_length_le embed query
        (hybrid_search embed dist searchOk st doc_id query 20) 5
    · simpa [retrieve_context, hc] using rerank_chunks_length_le embed query
        (hybrid_search embed dist searchOk st doc_id query 20) 3
    · simpa [retrieve_context, hc] using rerank_chunks_length_le embed query
        (hybrid_search embed dist searchOk st doc_id query 20) 3
    · intro intent h1 h2
      simp [retrieve_context, hc, h1, h2]

theorem claim_C2_witness :
    retrieve_context (fun _ => [(0 : ℚ)]) (fun _ _ => 0) (fun _ => true) [] 1 "q" "summary" =
      retrieve_context (fun _ => [(0 : ℚ)]) (fun _ _ => 0) (fun _ => true) [] 1 "q" "fact" :=
  (claim_C2 (fun _ => [(0 : ℚ)]) (fun _ _ => 0) (fun _ => true) [] 1 "q").2.2.2 "summary"
    (by decide) (by decide)

/-- C3 counterexample: after two one-chunk stores on the same doc_id the
index holds two entries that both carry the id "chunk_0", so the stored
chunk ids are not unique within the document's index, refuting the claim
as stated. -/
theorem claim_C3_counter :
    ∃ ids, (lookupColl "doc_1"
        (store_document (fun _ => [(1 : ℚ)])
          (store_document (fun _ => [(1 : ℚ)]) [] 1 "a" []).2 1 "b" []).2).map
        (fun c => c.entries.map (fun e => e.id)) = some ids ∧
      ¬ ids.Nodup :=
  ⟨["chunk_0", "chunk_0"], by decide, by decide⟩

/-- C3 (amended): calling store_document a second time with the same doc_id
appends the new text's chunks alongside the previously stored ones — the
index's entry count equals the sum of both calls' chunk counts — but each
call derives its ids from chunk_index restarting at 0, so ids are unique
only within one call's batch and collide across calls whenever both calls
produce at least one chunk. -/
theorem claim_C3_amended (embed : String → List ℚ) (st : RAGState) (doc_id : ℕ)
    (t1 t2 : String) (m1 m2 : List (String × String))
    (h0 : lookupColl ("doc_" ++ toString doc_id) st = none) :
    ∀ ids, (lookupColl ("doc_" ++ toString doc_id)
        (store_document embed (store_document embed st doc_id t1 m1).2 doc_id t2 m2).2).map
        (fun c => c.entries.map (fun e => e.id)) = some ids →
      ids = (List.range (chunk_document t1).length).map (fun i => "chunk_" ++ toString i) ++
        (List.range (chunk_document t2).length).map (fun i => "chunk_" ++ toString i) ∧
      ids.length = (chunk_document t1).length + (chunk_document t2).length ∧
      (1 ≤ (chunk_document t1).length → 1 ≤ (chunk_document t2).length → ¬ ids.Nodup) := by
  intro ids hids
  have hst1 := store_document_none embed st doc_id t1 m1 h0
  have hst2 := store_document_some embed _ doc_id t2 m2 _ hst1
  rw [hst2] at hids
  simp only [Option.map_some', Option.some.injEq] at hids
  have hids2 : ids =
      (List.range (chunk_document t1).length).map (fun i => "chunk_" ++ toString i) ++
      (List.range (chunk_document t2).length).map (fun i => "chunk_" ++ toString i) := by
    rw [← hids, List.map_append, mkEntries_ids, mkEntries_ids]
  refine ⟨hids2, ?_, ?_⟩
  · rw [hids2]
    simp [List.length_append, List.length_map, List.length_range]
  · intro hn1 hn2 hnd
    rw [hids2, List.nodup_append] at hnd
    obtain ⟨_, _, hdisj⟩ := hnd
    have hmem1 : "chunk_" ++ toString 0 ∈
        (List.range (chunk_document t1).length).map (fun i => "chunk_" ++ toString i) :=
      List.mem_map_of_mem _ (List.mem_range.mpr (by omega))
    have hmem2 : "chunk_" ++ toString 0 ∈
        (List.range (chunk_document t2).length).map (fun i => "chunk_" ++ toString i) :=
      List.mem_map_of_mem _ (List.mem_range.mpr (by omega))
    exact hdisj hmem1 hmem2

theorem claim_C3_witness :
    ¬ (["chunk_0", "chunk_0"] : List String).Nodup :=
  (claim_C3_amended (fun _ => [(1 : ℚ)]) [] 1 "a" "b" [] [] rfl ["chunk_0", "chunk_0"]
    (by decide)).2.2 (by decide) (by decide)

/-- C4: for a doc_id with no stored index, hybrid_search and
retrieve_context return the empty list, not an error, for every query,
top_k and intent. -/
theorem claim_C4 (embed : String → List ℚ) (dist : List ℚ → List ℚ → ℚ)
    (searchOk : ℕ → Bool) (st : RAGState) (doc_id : ℕ) (query : String) (top_k : ℕ)
    (intent : String)
    (h : lookupColl ("doc_" ++ toString doc_id) st = none) :
    hybrid_search embed dist searchOk st doc_id query top_k = [] ∧
    retrieve_context embed dist searchOk st doc_id query intent = [] := by
  have h1 : hybrid_search embed dist searchOk st doc_id query top_k = [] := by
    unfold hybrid_search
    rw [h]
  have h2 : hybrid_search embed dist searchOk st doc_id query 20 = [] := by
    unfold hybrid_search
    rw [h]
  exact ⟨h1, by simp [retrieve_context, h2]⟩

theorem claim_C4_witness :
    hybrid_search (fun _ => [(0 : ℚ)]) (fun _ _ => 0) (fun _ => true) [] 1 "q" 20 = [] ∧
    retrieve_context (fun _ => [(0 : ℚ)]) (fun _ _ => 0) (fun _ => true) [] 1 "q" "fact" = [] :=
  claim_C4 (fun _ => [(0 : ℚ)]) (fun _ _ => 0) (fun _ => true) [] 1 "q" 20 "fact" rfl

/-- C5: a query variant whose search step fails contributes nothing (its
variant index never appears in the output) and retrieval continues with the
remaining variants; when every variant's step fails, hybrid_search returns
the empty list instead of raising. -/
theorem claim_C5 (embed : String → List ℚ) (dist : List ℚ → List ℚ → ℚ)
    (searchOk : ℕ → Bool) (st : RAGState) (doc_id : ℕ) (query : String) (top_k : ℕ) :
    (∀ r ∈ hybrid_search embed dist searchOk st doc_id query top_k,
      searchOk r.query_variation = true) ∧
    ((∀ i, searchOk i = false) →
      hybrid_search embed dist searchOk st doc_id query top_k = []) := by
  constructor
  · intro r hr
    unfold hybrid_search at hr
    split at hr
    · simp at hr
    · exact hybridAll_tag _ _ _ _ _ _ r (dedupSort_subset _ _ r hr)
  · intro hall
    unfold hybrid_search
    split
    · rfl
    · rw [hybridAll_fail _ _ _ _ _ _ hall]
      exact dedupSort_nil _

theorem claim_C5_witness :
    hybrid_search (fun _ => [(0 : ℚ)]) (fun _ _ => 0) (fun _ => false)
      [⟨ "doc_1", [], [⟨ "chunk_0", [0], "a", ⟨0, "1", []⟩⟩]⟩] 1 "q" 5 = [] :=
  (claim_C5 (fun _ => [(0 : ℚ)]) (fun _ _ => 0) (fun _ => false)
    [⟨ "doc_1", [], [⟨ "chunk_0", [0], "a", ⟨0, "1", []⟩⟩]⟩] 1 "q" 5).2 (fun _ => rfl)

/-- C6: rerank_chunks returns at most top_k results, sorted non-increasing
by cosine similarity dot(q,c)/(‖q‖·‖c‖) between each candidate's text
embedding and the original query's embedding; empty candidates give an
empty result, not an error. -/
theorem claim_C6 (embed : String → List ℚ) (query : String) (chunks : List Result)
    (top_k : ℕ) :
    (rerank_chunks embed query chunks top_k).length ≤ top_k ∧
    (rerank_chunks embed query chunks top_k).Pairwise
      (fun a b => cosineSim (embed query) (embed b.text) ≤
        cosineSim (embed query) (embed a.text)) ∧
    (chunks = [] → rerank_chunks embed query chunks top_k = []) :=
  ⟨rerank_chunks_length_le embed query chunks top_k,
   rerank_chunks_sorted embed query chunks top_k,
   fun h => by rw [h]; exact rerank_chunks_nil embed query top_k⟩

theorem claim_C6_witness :
    rerank_chunks (fun _ => [(1 : ℚ)]) "q" [] 3 = [] :=
  (claim_C6 (fun _ => [(1 : ℚ)]) "q" [] 3).2.2 rfl

/-- C7: expand_query deterministically returns exactly six strings: the
original query unchanged first, then five fixed template rephrasings. -/
theorem claim_C7 (query : String) :
    expand_query query =
      [query,
       "What is " ++ query ++ "?",
       "Explain " ++ query,
       "Information about " ++ query,
       "Details regarding " ++ query,
       "Can you tell me about " ++ query ++ "?"] ∧
    (expand_query query).length = 6 ∧
    (expand_query query).head? = some query :=
  ⟨rfl, rfl, rfl⟩

/-- C8: the chunker as configured (size 1000, overlap 200) maps empty or
whitespace-only input to zero chunks without error, any other input shorter
than 1000 characters to exactly one chunk, and never emits a chunk longer
than 1000 characters (so no oversized-token overflow can occur at all). -/
theorem claim_C8 (text : String) :
    ((∀ c ∈ text.toList, c.isWhitespace) → chunk_document text = []) ∧
    (text.length < 1000 → ¬(∀ c ∈ text.toList, c.isWhitespace) →
      (chunk_document text).length = 1) ∧
    (∀ s ∈ chunk_document text, s.length ≤ 1000) := by
  refine ⟨chunk_document_ws text, ?_, chunk_document_le text⟩
  intro h1 h2
  have htrim : trimL text.toList ≠ [] := fun hnil => h2 (all_ws_of_trimL_eq_nil _ hnil)
  rw [chunk_document_short text h1 htrim]
  rfl

theorem claim_C8_witness : (chunk_document "hello world").length = 1 :=
  (claim_C8 "hello world").2.1 (by decide) (by decide)

/-- C9: get_collection_stats reports whether the document's index exists
and its chunk count (absent: exists false, count 0) and returns the store
unchanged — it mutates nothing. -/
theorem claim_C9 (st : RAGState) (doc_id : ℕ) :
    (get_collection_stats st doc_id).2 = st ∧
    (∀ coll, lookupColl ("doc_" ++ toString doc_id) st = some coll →
      (get_collection_stats st doc_id).1 =
        ⟨ "doc_" ++ toString doc_id, coll.entries.length, true⟩) ∧
    (lookupColl ("doc_" ++ toString doc_id) st = none →
      (get_collection_stats st doc_id).1 = ⟨ "doc_" ++ toString doc_id, 0, false⟩) := by
  refine ⟨?_, ?_, ?_⟩
  · simp only [get_collection_stats]
    split <;> rfl
  · intro coll hcoll
    simp only [get_collection_stats]
    split
    · rename_i c hc
      rw [hcoll] at hc
      injection hc with hc2
      rw [hc2]
    · rename_i hc
      rw [hcoll] at hc
      simp at hc
  · intro hnone
    simp only [get_collection_stats]
    split
    · rename_i c hc
      rw [hnone] at hc
      simp at hc
    · rfl

theorem claim_C9_witness :
    (get_collection_stats [] 1).2 = ([] : RAGState) ∧
    (get_collection_stats [] 1).1 = ⟨ "doc_" ++ toString 1, 0, false⟩ :=
  ⟨(claim_C9 [] 1).1, (claim_C9 [] 1).2.2 rfl⟩

/-- C10: store_document creates (or fetches) the collection before
chunking, so storing a text that produces zero chunks on a fresh doc_id
still returns the collection name and leaves behind an existing empty
index: stats then report exists with chunk count 0, not an error. -/
theorem claim_C10 (embed : String → List ℚ) (st : RAGState) (doc_id : ℕ) (text : String)
    (meta : List (String × String))
    (h1 : lookupColl ("doc_" ++ toString doc_id) st = none)
    (h2 : chunk_document text = []) :
    (store_document embed st doc_id text meta).1 = "doc_" ++ toString doc_id ∧
    (get_collection_stats (store_document embed st doc_id text meta).2 doc_id).1 =
      ⟨ "doc_" ++ toString doc_id, 0, true⟩ := by
  constructor
  · simp only [store_document]
    split <;> rfl
  · have hst := store_document_none embed st doc_id text meta h1
    rw [h2] at hst
    simp only [mkEntries, List.enum_nil, List.map_nil] at hst
    simp only [get_collection_stats]
    split
    · rename_i c hc
      rw [hst] at hc
      injection hc with hc2
      rw [← hc2]
      rfl
    · rename_i hc
      rw [hst] at hc
      simp at hc

theorem claim_C10_witness :
    (store_document (fun _ => [(1 : ℚ)]) [] 7 "" []).1 = "doc_" ++ toString 7 ∧
    (get_collection_stats (store_document (fun _ => [(1 : ℚ)]) [] 7 "" []).2 7).1 =
      ⟨ "doc_" ++ toString 7, 0, true⟩ :=
  claim_C10 (fun _ => [(1 : ℚ)]) [] 7 "" [] rfl rfl
